import Mathlib

/-!
Shallow embedding of the two Python tools of this repository
(`src/blockasset_data.py` and `src/crypto_trending.py`) together with
proofs of the specified properties.

Network and database effects are modelled by making the data a function
argument (the parsed JSON samples, the fetch outcome per coin, the prior
table contents); floating-point prices are modelled as rationals (ℚ), and
Python `None` as `Option.none`.
-/

namespace BlockassetData

/-!
Embedding of `src/blockasset_data.py`.

`datetime.utcfromtimestamp(ts / 1000).strftime("%Y-%m-%d")`: for a
non-negative millisecond timestamp `ts` the UTC calendar date is the civil
date `ts / 86400000` days after 1970-01-01, rendered as `YYYY-MM-DD`.
-/

/-- Civil date (year, month, day) of a day count since 1970-01-01
(proleptic Gregorian, day 0 = 1970-01-01). -/
def civilFromDays (z0 : Nat) : Nat × Nat × Nat :=
  let z := z0 + 719468
  let era := z / 146097
  let doe := z - era * 146097
  let yoe := (doe - doe / 1460 + doe / 36524 - doe / 146096) / 365
  let y := yoe + era * 400
  let doy := doe - (365 * yoe + yoe / 4 - yoe / 100)
  let mp := (5 * doy + 2) / 153
  let d := doy - (153 * mp + 2) / 5 + 1
  let m := if mp < 10 then mp + 3 else mp - 9
  (if m ≤ 2 then y + 1 else y, m, d)

/-- Zero-pad a numeral to two digits, as `%m` / `%d` do. -/
def pad2 (n : Nat) : String :=
  if n < 10 then "0" ++ toString n else toString n

/-- `datetime.utcfromtimestamp(ts / 1000).strftime("%Y-%m-%d")` for a
millisecond timestamp. -/
def dateOf (ts : Nat) : String :=
  let c := civilFromDays (ts / 86400000)
  toString c.1 ++ "-" ++ pad2 c.2.1 ++ "-" ++ pad2 c.2.2

/-- One step of `per_date[date] = value` on a Python dict modelled as an
association list: overwrite the value if the key is present (keeping its
position), otherwise append the new binding at the end. -/
def dictInsert : List (String × α) → String → α → List (String × α)
  | [], k, v => [(k, v)]
  | e :: rest, k, v =>
      if e.1 = k then (e.1, v) :: rest else e :: dictInsert rest k v

/-- The `per_date` dict built by the loop
`for ts, price in ...: per_date[date] = (int(ts), float(price))`
(for integer millisecond timestamps, `(int(ts), float(price))` is the
sample itself). -/
def per_dateOf (samples : List (Nat × ℚ)) : List (String × (Nat × ℚ)) :=
  samples.foldl (fun m s => dictInsert m (dateOf s.1) s) []

/-- The `per_date` dict with its entries sorted by key, ascending. -/
def sortedPerDate (samples : List (Nat × ℚ)) : List (String × (Nat × ℚ)) :=
  (per_dateOf samples).mergeSort (fun a b => a.1 ≤ b.1)

/-- The pure core of `fetch_price_history`: the transformation applied to
the parsed `data["prices"]` samples.  `[per_date[d] for d in sorted(per_date)]`
lists the values by ascending key which, the keys of a dict being unique,
is the entry list sorted by key with the keys dropped. -/
def fetch_price_history (samples : List (Nat × ℚ)) : List (Nat × ℚ) :=
  (sortedPerDate samples).map Prod.snd

/-- The last input sample carrying a given date, in input order
(`none` when no sample has that date). -/
def lastSampleFor (samples : List (Nat × ℚ)) (d : String) : Option (Nat × ℚ) :=
  (samples.filter (fun s => dateOf s.1 = d)).getLast?

/-- `save_db`: connect, `CREATE TABLE IF NOT EXISTS prices` (an absent
table behaves as an empty one), `DELETE FROM prices`, then insert one
`(date, price)` row per sample.  The function returns the table contents
after the run; `prior` is the table before it (`none` = no table yet). -/
def save_db (rows : List (Nat × ℚ)) (prior : Option (List (String × ℚ))) :
    List (String × ℚ) :=
  let _table := prior.getD []
  let cleared : List (String × ℚ) := []
  cleared ++ rows.map (fun r => (dateOf r.1, r.2))

/-- `save_csv`: `open(path, "w")` truncates whatever was there; the file
afterwards is the header row plus one `(date, price)` row per sample.
The result is (header, data rows); `prior` is ignored because mode "w"
discards it. -/
def save_csv (rows : List (Nat × ℚ))
    (_prior : Option (List String × List (String × ℚ))) :
    List String × List (String × ℚ) :=
  (["date", "price_usd"], rows.map (fun r => (dateOf r.1, r.2)))

end BlockassetData

namespace CryptoTrending

/-!
Embedding of `src/crypto_trending.py`.  The network is modelled as data:
each coin's market-chart request either fails (`none`, standing for a
raised `requests.RequestException`) or returns a list of prices.
-/

/-- A trending coin as returned by `fetch_trending` (id, name, symbol). -/
structure Coin where
  id : String
  name : String
  symbol : String
deriving DecidableEq

/-- `fetch_prices`: the `try/except requests.RequestException` around the
GET returns `[]` on a transport failure and the parsed prices otherwise. -/
def fetch_prices (outcome : Option (List ℚ)) : List ℚ :=
  match outcome with
  | none => []
  | some ps => ps

/-- The day-over-day deltas `prices[i] - prices[i - 1]` for
`i = 1 .. period` computed by the loop in `compute_rsi` (the loop indexes
`prices[i]` and `prices[i - 1]` for `i in range(1, period + 1)`; out of
range reads cannot occur because the caller checks
`len(prices) > period`). -/
def deltasOf (prices : List ℚ) (period : Nat) : List ℚ :=
  (List.range period).map (fun i => prices.getD (i + 1) 0 - prices.getD i 0)

/-- The `gains` list: deltas with `delta > 0`, in order. -/
def gainsOf (prices : List ℚ) (period : Nat) : List ℚ :=
  (deltasOf prices period).filter (fun d => 0 < d)

/-- The `losses` list: `-delta` for the deltas with `delta <= 0`, in
order. -/
def lossesOf (prices : List ℚ) (period : Nat) : List ℚ :=
  ((deltasOf prices period).filter (fun d => ¬ 0 < d)).map (fun d => -d)

/-- `avg_gain = sum(gains) / period`. -/
def avg_gain (prices : List ℚ) (period : Nat) : ℚ :=
  (gainsOf prices period).sum / (period : ℚ)

/-- `avg_loss = sum(losses) / period`. -/
def avg_loss (prices : List ℚ) (period : Nat) : ℚ :=
  (lossesOf prices period).sum / (period : ℚ)

/-- The default lookback period of `compute_rsi`. -/
def defaultPeriod : Nat := 14

/-- `compute_rsi`: `None` when `len(prices) <= period`; `100.0` when the
average loss is zero; otherwise `100 - 100 / (1 + rs)` with
`rs = avg_gain / avg_loss`. -/
def compute_rsi (prices : List ℚ) (period : Nat) : Option ℚ :=
  if prices.length ≤ period then none
  else if avg_loss prices period = 0 then some 100
  else some (100 - 100 / (1 + avg_gain prices period / avg_loss prices period))

/-- The signal branch of `analyze_coin` as a function of the RSI alone:
`None` → neutral, `< 30` → buy, `> 70` → sell, otherwise neutral. -/
def signalOf (rsi : Option ℚ) : String :=
  match rsi with
  | none => "neutral"
  | some r => if r < 30 then "buy" else if r > 70 then "sell" else "neutral"

/-- `analyze_coin`, with the coin's network outcome as an argument.  In the
source an undefined RSI is carried to the caller as `float("nan")` and
turned back into `None` by `main`; the embedding keeps the `Option`
throughout, which identifies the NaN marker with `none`. -/
def analyze_coin (coin : Coin) (outcome : Option (List ℚ)) :
    String × Option ℚ × String :=
  let prices := fetch_prices outcome
  let rsi := compute_rsi prices defaultPeriod
  let signal :=
    match rsi with
    | none => "neutral"
    | some r => if r < 30 then "buy" else if r > 70 then "sell" else "neutral"
  (coin.symbol, rsi, signal)

/-- Python `round` to an integer: round half to even. -/
def pyRound (q : ℚ) : ℤ :=
  if q - (⌊q⌋ : ℚ) < 1 / 2 then ⌊q⌋
  else if 1 / 2 < q - (⌊q⌋ : ℚ) then ⌊q⌋ + 1
  else if 2 ∣ ⌊q⌋ then ⌊q⌋ else ⌊q⌋ + 1

/-- Python `round(x, 2)`. -/
def round2 (q : ℚ) : ℚ := (pyRound (q * 100) : ℚ) / 100

/-- One output row of `main`. -/
structure ResultRow where
  name : String
  symbol : String
  rsi : Option ℚ
  signal : String
deriving DecidableEq

/-- One entry of `results` in `main`: name, symbol from `analyze_coin`,
`round(rsi, 2)` (`None` when the RSI was the NaN marker), and the signal
that `analyze_coin` classified from the unrounded RSI. -/
def mainRow (coin : Coin) (outcome : Option (List ℚ)) : ResultRow :=
  let t := analyze_coin coin outcome
  ⟨coin.name, t.1, t.2.1.map round2, t.2.2⟩

/-- The trending selection of `main`: `fetch_trending()[:7]`. -/
def selectTrending (coins : List Coin) : List Coin := coins.take 7

/-- The `results` loop of `main` over the selected coins, pairing each
coin with its network outcome. -/
def runResults (batch : List (Coin × Option (List ℚ))) : List ResultRow :=
  batch.map (fun p => mainRow p.1 p.2)

/-- `save_db`: `CREATE TABLE IF NOT EXISTS trending`, `DELETE FROM
trending`, then insert one row per result.  Returns the table contents
after the run; `prior` is the table before it (`none` = no table yet). -/
def save_db (rows : List ResultRow) (prior : Option (List ResultRow)) :
    List ResultRow :=
  let _table := prior.getD []
  let cleared : List ResultRow := []
  cleared ++ rows

/-- `save_csv`: `open(path, "w")` truncates the target, then the
`DictWriter` writes the header and one row per result. -/
def save_csv (rows : List ResultRow)
    (_prior : Option (List String × List ResultRow)) :
    List String × List ResultRow :=
  (["name", "symbol", "rsi", "signal"], rows)

end CryptoTrending

namespace BlockassetData

theorem mem_keys_dictInsert (m : List (String × α)) (k d : String) (v : α) :
    d ∈ (dictInsert m k v).map Prod.fst ↔ d = k ∨ d ∈ m.map Prod.fst := by
  induction m with
  | nil => simp [dictInsert]
  | cons e rest ih =>
      by_cases h : e.1 = k
      · subst h
        simp [dictInsert]
      · simp [dictInsert, h, ih]
        tauto

theorem nodup_keys_dictInsert (m : List (String × α)) (k : String) (v : α)
    (h : (m.map Prod.fst).Nodup) : ((dictInsert m k v).map Prod.fst).Nodup := by
  induction m with
  | nil => simp [dictInsert]
  | cons e rest ih =>
      simp only [List.map_cons, List.nodup_cons] at h
      by_cases hk : e.1 = k
      · simpa [dictInsert, hk] using h
      · simp only [dictInsert, if_neg hk, List.map_cons, List.nodup_cons]
        refine ⟨fun hmem => ?_, ih h.2⟩
        rcases (mem_keys_dictInsert rest k e.1 v).mp hmem with h1 | h1
        · exact hk h1
        · exact h.1 h1

theorem lookup_dictInsert (m : List (String × α)) (k d : String) (v : α) :
    (dictInsert m k v).lookup d = if d = k then some v else m.lookup d := by
  induction m with
  | nil =>
      by_cases h : d = k
      · simp [dictInsert, h]
      · rw [if_neg h]
        simp only [dictInsert]
        rw [List.lookup_cons, beq_eq_false_iff_ne.mpr h]
  | cons e rest ih =>
      obtain ⟨k0, v0⟩ := e
      by_cases hk : k0 = k
      · subst hk
        rw [show dictInsert ((k0, v0) :: rest) k0 v = (k0, v) :: rest from by
          simp [dictInsert]]
        by_cases hd : d = k0
        · subst hd
          simp
        · rw [if_neg hd, List.lookup_cons, List.lookup_cons,
            beq_eq_false_iff_ne.mpr hd]
      · simp only [dictInsert, if_neg hk]
        by_cases hd : d = k0
        · subst hd
          have hne : ¬ d = k := hk
          rw [if_neg hne]
          simp
        · rw [List.lookup_cons, beq_eq_false_iff_ne.mpr hd, ih]
          by_cases hdk : d = k
          · rw [if_pos hdk, if_pos hdk]
          · rw [if_neg hdk, if_neg hdk, List.lookup_cons,
              beq_eq_false_iff_ne.mpr hd]

theorem mem_dictInsert (e : String × α) (m : List (String × α)) (k : String) (v : α)
    (he : e ∈ dictInsert m k v) : e = (k, v) ∨ e ∈ m := by
  induction m with
  | nil => simpa [dictInsert] using he
  | cons e0 rest ih =>
      by_cases hk : e0.1 = k
      · rcases (by simpa [dictInsert, hk] using he : e = (e0.1, v) ∨ e ∈ rest) with h | h
        · exact Or.inl (by simp [h, hk])
        · exact Or.inr (List.mem_cons_of_mem _ h)
      · rcases (by simpa [dictInsert, hk] using he : e = e0 ∨ e ∈ dictInsert rest k v) with h | h
        · exact Or.inr (by simp [h])
        · rcases ih h with h1 | h1
          · exact Or.inl h1
          · exact Or.inr (List.mem_cons_of_mem _ h1)

theorem lookup_eq_of_mem (m : List (String × α)) (h : (m.map Prod.fst).Nodup)
    (e : String × α) (he : e ∈ m) : m.lookup e.1 = some e.2 := by
  induction m with
  | nil => cases he
  | cons e0 rest ih =>
      obtain ⟨k0, v0⟩ := e0
      simp only [List.map_cons, List.nodup_cons] at h
      rcases List.mem_cons.mp he with rfl | hmem
      · simp
      · have hne : e.1 ≠ k0 := fun hEq =>
          h.1 (hEq ▸ List.mem_map_of_mem Prod.fst hmem)
        rw [List.lookup_cons, beq_eq_false_iff_ne.mpr hne]
        exact ih h.2 hmem

theorem getLast?_cons_or (a : α) (l : List α) :
    (a :: l).getLast? = l.getLast?.or (some a) := by
  induction l generalizing a with
  | nil => rfl
  | cons b l ih =>
      rw [List.getLast?_cons_cons, ih b, Option.or_assoc, Option.or_some]

theorem nodup_keys_foldl_dictInsert (key : β → String) (samples : List β)
    (m : List (String × β)) (h : (m.map Prod.fst).Nodup) :
    ((samples.foldl (fun m s => dictInsert m (key s) s) m).map Prod.fst).Nodup := by
  induction samples generalizing m with
  | nil => simpa using h
  | cons s rest ih => exact ih _ (nodup_keys_dictInsert m (key s) s h)

theorem lookup_foldl_dictInsert (key : β → String) (samples : List β)
    (m : List (String × β)) (d : String) :
    (samples.foldl (fun m s => dictInsert m (key s) s) m).lookup d
      = ((samples.filter (fun s => key s = d)).getLast?).or (m.lookup d) := by
  induction samples generalizing m with
  | nil => simp
  | cons s rest ih =>
      simp only [List.foldl_cons]
      rw [ih]
      by_cases h : key s = d
      · rw [List.filter_cons_of_pos (by simpa using h), getLast?_cons_or,
          lookup_dictInsert, if_pos h.symm, Option.or_assoc, Option.or_some]
      · rw [List.filter_cons_of_neg (by simpa using h), lookup_dictInsert,
          if_neg (fun hEq => h hEq.symm)]

theorem mem_keys_foldl_dictInsert (key : β → String) (samples : List β)
    (m : List (String × β)) (d : String) :
    d ∈ ((samples.foldl (fun m s => dictInsert m (key s) s) m).map Prod.fst)
      ↔ d ∈ samples.map key ∨ d ∈ m.map Prod.fst := by
  induction samples generalizing m with
  | nil => simp
  | cons s rest ih =>
      simp only [List.foldl_cons, List.map_cons, List.mem_cons]
      rw [ih, mem_keys_dictInsert]
      tauto

theorem key_eq_of_mem_foldl_dictInsert (key : β → String) (samples : List β)
    (m : List (String × β)) (h : ∀ e ∈ m, key e.2 = e.1) :
    ∀ e ∈ samples.foldl (fun m s => dictInsert m (key s) s) m, key e.2 = e.1 := by
  induction samples generalizing m with
  | nil => simpa using h
  | cons s rest ih =>
      refine ih _ (fun e he => ?_)
      rcases mem_dictInsert e m (key s) s he with rfl | hm
      · rfl
      · exact h e hm

theorem nodup_keys_per_date (samples : List (Nat × ℚ)) :
    ((per_dateOf samples).map Prod.fst).Nodup :=
  nodup_keys_foldl_dictInsert (fun s : Nat × ℚ => dateOf s.1) samples [] (by simp)

theorem sortedPerDate_perm (samples : List (Nat × ℚ)) :
    List.Perm (sortedPerDate samples) (per_dateOf samples) :=
  List.mergeSort_perm (per_dateOf samples) _

theorem nodup_keys_sortedPerDate (samples : List (Nat × ℚ)) :
    ((sortedPerDate samples).map Prod.fst).Nodup :=
  ((sortedPerDate_perm samples).map Prod.fst).nodup_iff.mpr
    (nodup_keys_per_date samples)

theorem key_eq_of_mem_sortedPerDate (samples : List (Nat × ℚ)) :
    ∀ e ∈ sortedPerDate samples, dateOf e.2.1 = e.1 := fun e he =>
  key_eq_of_mem_foldl_dictInsert (fun s : Nat × ℚ => dateOf s.1) samples [] (by simp)
    e ((sortedPerDate_perm samples).mem_iff.mp he)

theorem pairwise_lt_keys_sortedPerDate (samples : List (Nat × ℚ)) :
    (sortedPerDate samples).Pairwise (fun a b => a.1 < b.1) := by
  have hle : (sortedPerDate samples).Pairwise
      (fun a b => decide (a.1 ≤ b.1) = true) := by
    refine List.sorted_mergeSort ?_ ?_ (per_dateOf samples)
    · intro a b c hab hbc
      simp only [decide_eq_true_eq] at *
      exact le_trans hab hbc
    · intro a b
      simpa using le_total a.1 b.1
  have hne : (sortedPerDate samples).Pairwise (fun a b => a.1 ≠ b.1) :=
    List.pairwise_map.mp (nodup_keys_sortedPerDate samples)
  exact (hle.and hne).imp (fun h => lt_of_le_of_ne (by simpa using h.1) h.2)

theorem mem_keys_sortedPerDate (samples : List (Nat × ℚ)) (d : String) :
    d ∈ (sortedPerDate samples).map Prod.fst
      ↔ d ∈ samples.map (fun s => dateOf s.1) := by
  rw [((sortedPerDate_perm samples).map Prod.fst).mem_iff]
  rw [show (per_dateOf samples).map Prod.fst
      = (samples.foldl (fun m s => dictInsert m (dateOf s.1) s) []).map Prod.fst
    from rfl]
  rw [mem_keys_foldl_dictInsert (fun s : Nat × ℚ => dateOf s.1) samples [] d]
  simp

theorem map_dates_of_key (l : List (String × (Nat × ℚ)))
    (h : ∀ e ∈ l, dateOf e.2.1 = e.1) :
    (l.map Prod.snd).map (fun r => dateOf r.1) = l.map Prod.fst := by
  induction l with
  | nil => rfl
  | cons e rest ih =>
      simp only [List.map_cons, List.mem_cons, List.cons.injEq]
      constructor
      · exact h e (List.mem_cons_self e rest)
      · exact ih (fun e2 he2 => h e2 (List.mem_cons_of_mem e he2))

theorem pairwise_dates_of_key (l : List (String × (Nat × ℚ)))
    (h : ∀ e ∈ l, dateOf e.2.1 = e.1)
    (hp : l.Pairwise (fun a b => a.1 < b.1)) :
    List.Pairwise (fun a b : Nat × ℚ => dateOf a.1 < dateOf b.1)
      (l.map Prod.snd) := by
  induction l with
  | nil => exact List.Pairwise.nil
  | cons e rest ih =>
      rcases List.pairwise_cons.mp hp with ⟨h1, h2⟩
      simp only [List.map_cons]
      refine List.pairwise_cons.mpr ⟨?_, ?_⟩
      · intro b hb
        rcases List.mem_map.mp hb with ⟨e2, he2, rfl⟩
        rw [h e (List.mem_cons_self e rest),
          h e2 (List.mem_cons_of_mem e he2)]
        exact h1 e2 he2
      · exact ih (fun e2 he2 => h e2 (List.mem_cons_of_mem e he2)) h2

/-- Claim C1: `fetch_price_history` returns one row per distinct UTC calendar
date of the input samples, each row being the last sample in input order for
its date (last write wins), with rows sorted strictly ascending by date
string even for out-of-order input. -/
theorem fetch_price_history_spec (samples : List (Nat × ℚ)) :
    List.Pairwise (fun a b : Nat × ℚ => dateOf a.1 < dateOf b.1)
      (fetch_price_history samples) ∧
    (∀ d : String,
      ((fetch_price_history samples).map (fun r => dateOf r.1)).count d
        = if d ∈ samples.map (fun s => dateOf s.1) then 1 else 0) ∧
    (∀ r ∈ fetch_price_history samples,
      lastSampleFor samples (dateOf r.1) = some r) := by
  have hkey := key_eq_of_mem_sortedPerDate samples
  have hdates : (fetch_price_history samples).map (fun r => dateOf r.1)
      = (sortedPerDate samples).map Prod.fst := by
    rw [fetch_price_history]
    exact map_dates_of_key (sortedPerDate samples) hkey
  refine ⟨?_, ?_, ?_⟩
  · rw [fetch_price_history]
    exact pairwise_dates_of_key (sortedPerDate samples) hkey
      (pairwise_lt_keys_sortedPerDate samples)
  · intro d
    rw [hdates]
    by_cases hd : d ∈ samples.map (fun s => dateOf s.1)
    · rw [if_pos hd]
      exact List.count_eq_one_of_mem (nodup_keys_sortedPerDate samples)
        ((mem_keys_sortedPerDate samples d).mpr hd)
    · rw [if_neg hd]
      exact List.count_eq_zero_of_not_mem
        (fun hmem => hd ((mem_keys_sortedPerDate samples d).mp hmem))
  · intro r hr
    rw [fetch_price_history] at hr
    rcases List.mem_map.mp hr with ⟨e, he, rfl⟩
    rw [hkey e he]
    have hlook : (per_dateOf samples).lookup e.1 = some e.2 :=
      lookup_eq_of_mem (per_dateOf samples) (nodup_keys_per_date samples) e
        ((sortedPerDate_perm samples).mem_iff.mp he)
    have hfold := lookup_foldl_dictInsert (fun s : Nat × ℚ => dateOf s.1) samples [] e.1
    rw [show samples.foldl (fun m s => dictInsert m (dateOf s.1) s) []
        = per_dateOf samples from rfl] at hfold
    rw [hlook, List.lookup_nil, Option.or_none] at hfold
    exact hfold.symm

/-- Concrete instance of `fetch_price_history_spec`: two samples on the same
UTC date keep only the later one. -/
theorem fetch_price_history_spec_witness :
    lastSampleFor [((0 : Nat), (1 : ℚ)), (500, 2)] (dateOf 500)
      = some (500, 2) := by
  have hpd : per_dateOf [((0 : Nat), (1 : ℚ)), (500, 2)]
      = [("1970-01-01", ((500 : Nat), (2 : ℚ)))] := by decide
  have hs : sortedPerDate [((0 : Nat), (1 : ℚ)), (500, 2)]
      = [("1970-01-01", ((500 : Nat), (2 : ℚ)))] := by
    rw [sortedPerDate, hpd, List.mergeSort_singleton]
  have hmem : ((500 : Nat), (2 : ℚ))
      ∈ fetch_price_history [((0 : Nat), (1 : ℚ)), (500, 2)] := by
    rw [fetch_price_history, hs]
    simp
  exact (fetch_price_history_spec [((0 : Nat), (1 : ℚ)), (500, 2)]).2.2
    (500, 2) hmem

end BlockassetData

namespace CryptoTrending

theorem getD_eq_of_take_eq (l1 l2 : List ℚ) (n i : Nat)
    (h : l1.take n = l2.take n) (hi : i < n) :
    l1.getD i 0 = l2.getD i 0 := by
  have h1 : (l1.take n)[i]? = (l2.take n)[i]? := by rw [h]
  rw [List.getElem?_take_of_lt hi, List.getElem?_take_of_lt hi] at h1
  rw [List.getD_eq_getElem?_getD, List.getD_eq_getElem?_getD, h1]

theorem deltasOf_congr (l1 l2 : List ℚ) (period : Nat)
    (h : l1.take (period + 1) = l2.take (period + 1)) :
    deltasOf l1 period = deltasOf l2 period := by
  unfold deltasOf
  refine List.map_congr_left (fun i hi => ?_)
  have hi2 : i < period := List.mem_range.mp hi
  rw [getD_eq_of_take_eq l1 l2 (period + 1) i h (by omega),
    getD_eq_of_take_eq l1 l2 (period + 1) (i + 1) h (by omega)]

/-- Claim C2: for price lists longer than the period, `compute_rsi` reads
only the first `period + 1` prices; for a nonzero average loss the result
is `100 - 100 / (1 + avg_gain / avg_loss)`, and any two lists longer than
the period that agree on their first `period + 1` elements get the same
RSI. -/
theorem compute_rsi_window (prices : List ℚ) (period : Nat)
    (h : period < prices.length) :
    (avg_loss prices period ≠ 0 →
      compute_rsi prices period
        = some (100 - 100 / (1 + avg_gain prices period / avg_loss prices period))) ∧
    (∀ qs : List ℚ, period < qs.length →
      prices.take (period + 1) = qs.take (period + 1) →
      compute_rsi prices period = compute_rsi qs period) := by
  constructor
  · intro hz
    rw [compute_rsi, if_neg (not_le.mpr h), if_neg hz]
  · intro qs hq htake
    have hd := deltasOf_congr prices qs period htake
    rw [compute_rsi, compute_rsi, if_neg (not_le.mpr h), if_neg (not_le.mpr hq),
      avg_gain, avg_gain, avg_loss, avg_loss, gainsOf, gainsOf,
      lossesOf, lossesOf, hd]

/-- Concrete instance of `compute_rsi_window`: two lists agreeing on their
first `period + 1 = 2` entries get the same RSI. -/
theorem compute_rsi_window_witness :
    compute_rsi [(1 : ℚ), 2, 3] 1 = compute_rsi [(1 : ℚ), 2, 4] 1 :=
  (compute_rsi_window [(1 : ℚ), 2, 3] 1 (by decide)).2 [(1 : ℚ), 2, 4]
    (by decide) rfl

/-- Claim C3: `compute_rsi` returns the undefined marker `none` exactly
when the price list has at most `period` entries. -/
theorem compute_rsi_none_iff (prices : List ℚ) (period : Nat) :
    compute_rsi prices period = none ↔ prices.length ≤ period := by
  rw [compute_rsi]
  split_ifs with h1 h2 <;> simp [h1]

/-- Claim C4: the signal is a pure function of the RSI with strict
thresholds 30 and 70, the boundary values and the undefined RSI all
classifying as neutral. -/
theorem signal_pure_function :
    (∀ (coin : Coin) (outcome : Option (List ℚ)),
      (analyze_coin coin outcome).2.2
        = signalOf (compute_rsi (fetch_prices outcome) defaultPeriod)) ∧
    (∀ r : ℚ, r < 30 → signalOf (some r) = "buy") ∧
    (∀ r : ℚ, 70 < r → signalOf (some r) = "sell") ∧
    (∀ r : ℚ, 30 ≤ r → r ≤ 70 → signalOf (some r) = "neutral") ∧
    signalOf none = "neutral" ∧
    signalOf (some 25) = "buy" ∧
    signalOf (some 30) = "neutral" ∧
    signalOf (some 70) = "neutral" ∧
    signalOf (some 75) = "sell" := by
  refine ⟨fun coin outcome => rfl, ?_, ?_, ?_, rfl, ?_, ?_, ?_, ?_⟩
  · intro r h
    simp [signalOf, h]
  · intro r h
    have h1 : ¬ r < 30 := by linarith
    simp [signalOf, h1, h]
  · intro r h1 h2
    have h3 : ¬ r < 30 := by linarith
    have h4 : ¬ r > 70 := by linarith
    simp [signalOf, h3, h4]
  · norm_num [signalOf]
  · norm_num [signalOf]
  · norm_num [signalOf]
  · norm_num [signalOf]

/-- Concrete instances of `signal_pure_function`: RSI 29 is a buy, RSI 71
a sell, RSI 50 neutral. -/
theorem signal_pure_function_witness :
    signalOf (some 29) = "buy" ∧ signalOf (some 71) = "sell" ∧
    signalOf (some 50) = "neutral" :=
  ⟨signal_pure_function.2.1 29 (by norm_num),
   signal_pure_function.2.2.1 71 (by norm_num),
   signal_pure_function.2.2.2.1 50 (by norm_num) (by norm_num)⟩

/-- Claim C5: if every delta of the leading window is non-negative the
average loss is zero, and a zero average loss makes `compute_rsi` return
exactly 100 without taking the division branch. -/
theorem compute_rsi_zero_loss (prices : List ℚ) (period : Nat)
    (h : period < prices.length) :
    ((∀ d ∈ deltasOf prices period, 0 ≤ d) → avg_loss prices period = 0) ∧
    (avg_loss prices period = 0 → compute_rsi prices period = some 100) := by
  constructor
  · intro hd
    have hzero : ∀ x ∈ lossesOf prices period, x = 0 := by
      intro x hx
      rcases List.mem_map.mp hx with ⟨d, hdm, rfl⟩
      have hdm2 := List.mem_filter.mp hdm
      have h1 : ¬ 0 < d := by simpa using hdm2.2
      have h2 : 0 ≤ d := hd d hdm2.1
      have h3 : d = 0 := le_antisymm (not_lt.mp h1) h2
      simp [h3]
    have hsum : (lossesOf prices period).sum = 0 := List.sum_eq_zero hzero
    rw [avg_loss, hsum, zero_div]
  · intro hz
    rw [compute_rsi, if_neg (not_le.mpr h), if_pos hz]

/-- Concrete instance of `compute_rsi_zero_loss`: a strictly rising pair of
prices has zero average loss and RSI exactly 100. -/
theorem compute_rsi_zero_loss_witness :
    avg_loss [(1 : ℚ), 2] 1 = 0 ∧ compute_rsi [(1 : ℚ), 2] 1 = some 100 := by
  have h := compute_rsi_zero_loss [(1 : ℚ), 2] 1 (by decide)
  have hall : ∀ d ∈ deltasOf [(1 : ℚ), 2] 1, 0 ≤ d := by
    intro d hd
    simp [deltasOf] at hd
    rw [← hd]
    norm_num
  have hz := h.1 hall
  exact ⟨hz, h.2 hz⟩

/-- Claim C8: every numeric RSI lies in the closed interval [0, 100]. -/
theorem compute_rsi_bounds (prices : List ℚ) (period : Nat) (r : ℚ)
    (h : compute_rsi prices period = some r) : 0 ≤ r ∧ r ≤ 100 := by
  rw [compute_rsi] at h
  split_ifs at h with h1 h2
  · have hr : r = 100 := (Option.some.inj h).symm
    subst hr
    norm_num
  · have hval : r = 100 - 100 / (1 + avg_gain prices period / avg_loss prices period) :=
      (Option.some.inj h).symm
    have hg : 0 ≤ avg_gain prices period := by
      apply div_nonneg _ (Nat.cast_nonneg period)
      apply List.sum_nonneg
      intro x hx
      have hx2 := List.mem_filter.mp hx
      have : (0 : ℚ) < x := by simpa using hx2.2
      exact le_of_lt this
    have hl : 0 ≤ avg_loss prices period := by
      apply div_nonneg _ (Nat.cast_nonneg period)
      apply List.sum_nonneg
      intro x hx
      rcases List.mem_map.mp hx with ⟨d, hdm, rfl⟩
      have hdm2 := List.mem_filter.mp hdm
      have hnp : ¬ (0 : ℚ) < d := by simpa using hdm2.2
      linarith [not_lt.mp hnp]
    have hrs : 0 ≤ avg_gain prices period / avg_loss prices period :=
      div_nonneg hg hl
    have hpos : (0 : ℚ) < 1 + avg_gain prices period / avg_loss prices period := by
      linarith
    have hub : 100 / (1 + avg_gain prices period / avg_loss prices period)
        ≤ 100 := div_le_self (by norm_num) (by linarith)
    have hlb : 0 < 100 / (1 + avg_gain prices period / avg_loss prices period) :=
      div_pos (by norm_num) hpos
    subst hval
    constructor <;> linarith

/-- Concrete instance of `compute_rsi_bounds`. -/
theorem compute_rsi_bounds_witness :
    compute_rsi [(1 : ℚ), 2] 1 = some 100 ∧ ((0 : ℚ) ≤ 100 ∧ (100 : ℚ) ≤ 100) := by
  have h : compute_rsi [(1 : ℚ), 2] 1 = some 100 := by
    norm_num [compute_rsi, avg_loss, lossesOf, deltasOf, List.filter]
  exact ⟨h, compute_rsi_bounds [(1 : ℚ), 2] 1 100 h⟩

end CryptoTrending

namespace CryptoTrending

/-- Claim C6: a transport failure for one coin of the batch gives that coin
an empty price list, hence an undefined RSI and a neutral signal, and the
result of every other coin is exactly what it would have been without the
failure. -/
theorem per_coin_isolation (batch : List (Coin × Option (List ℚ))) (j : Nat)
    (hj : j < batch.length) :
    fetch_prices none = ([] : List ℚ) ∧
    compute_rsi ([] : List ℚ) defaultPeriod = none ∧
    (∀ i : Nat, i ≠ j →
      (runResults (batch.set j ((batch.get ⟨j, hj⟩).1, none)))[i]?
        = (runResults batch)[i]?) ∧
    (runResults (batch.set j ((batch.get ⟨j, hj⟩).1, none)))[j]?
      = some ⟨(batch.get ⟨j, hj⟩).1.name, (batch.get ⟨j, hj⟩).1.symbol,
          none, "neutral"⟩ := by
  refine ⟨rfl, rfl, ?_, ?_⟩
  · intro i hne
    rw [runResults, runResults, List.getElem?_map, List.getElem?_map,
      List.getElem?_set_ne (fun hEq => hne hEq.symm)]
  · rw [runResults, List.getElem?_map,
      List.getElem?_set_self (by simpa using hj)]
    rfl

/-- Concrete instance of `per_coin_isolation`: the failing first coin's row
is undefined-RSI / neutral. -/
theorem per_coin_isolation_witness :
    (runResults [((⟨"solana", "Solana", "sol"⟩ : Coin), none),
        ((⟨"bitcoin", "Bitcoin", "btc"⟩ : Coin), some [1, 2])])[0]?
      = some ⟨"Solana", "sol", none, "neutral"⟩ :=
  (per_coin_isolation
    [(⟨"solana", "Solana", "sol"⟩, some [3]),
     (⟨"bitcoin", "Bitcoin", "btc"⟩, some [1, 2])] 0 (by decide)).2.2.2

/-- Claim C7: the trending selection takes exactly the first 7 entries in
source order (all of them when fewer than 7), with no reordering,
deduplication or filtering: it is the length-min(7, n) prefix of the
source list. -/
theorem selectTrending_spec (coins : List Coin) :
    (selectTrending coins).length = min 7 coins.length ∧
    (coins.length ≤ 7 → selectTrending coins = coins) ∧
    (7 ≤ coins.length → (selectTrending coins).length = 7) ∧
    selectTrending coins ++ coins.drop 7 = coins := by
  refine ⟨by simp [selectTrending], fun h => ?_, fun h => ?_, ?_⟩
  · rw [selectTrending, List.take_of_length_le h]
  · rw [selectTrending]
    simp
    omega
  · rw [selectTrending, List.take_append_drop]

/-- Concrete instance of `selectTrending_spec`: a source list shorter than
7 is returned whole. -/
theorem selectTrending_spec_witness :
    selectTrending [(⟨"bitcoin", "Bitcoin", "btc"⟩ : Coin)]
      = [(⟨"bitcoin", "Bitcoin", "btc"⟩ : Coin)] :=
  (selectTrending_spec [⟨"bitcoin", "Bitcoin", "btc"⟩]).2.1 (by decide)

/-- Claim C10: the stored RSI of a result row is the computed RSI rounded
to two decimals (`None` when undefined) while the signal is classified
from the unrounded value; an unrounded RSI of 29.999 is stored as 30
together with a "buy" signal. -/
theorem stored_rsi_rounded :
    (∀ (coin : Coin) (outcome : Option (List ℚ)),
      (mainRow coin outcome).rsi
          = (compute_rsi (fetch_prices outcome) defaultPeriod).map round2 ∧
      (mainRow coin outcome).signal
          = signalOf (compute_rsi (fetch_prices outcome) defaultPeriod)) ∧
    compute_rsi [0, 29999, -40002, -40002, -40002, -40002, -40002, -40002,
        -40002, -40002, -40002, -40002, -40002, -40002, -40002] 14
      = some (29999 / 1000) ∧
    (29999 / 1000 : ℚ) < 30 ∧
    round2 (29999 / 1000 : ℚ) = 30 ∧
    mainRow ⟨"x", "X", "x"⟩ (some [0, 29999, -40002, -40002, -40002, -40002,
        -40002, -40002, -40002, -40002, -40002, -40002, -40002, -40002,
        -40002])
      = ⟨"X", "x", some 30, "buy"⟩ := by
  have hrsi : compute_rsi [0, 29999, -40002, -40002, -40002, -40002, -40002,
      -40002, -40002, -40002, -40002, -40002, -40002, -40002, -40002] 14
      = some (29999 / 1000) := by
    norm_num [compute_rsi, avg_gain, avg_loss, gainsOf, lossesOf, deltasOf,
      List.range_succ, List.filter]
  have hround : round2 (29999 / 1000 : ℚ) = 30 := by
    norm_num [round2, pyRound]
  refine ⟨fun coin outcome => ⟨rfl, rfl⟩, hrsi, by norm_num, hround, ?_⟩
  have hrow : mainRow ⟨"x", "X", "x"⟩ (some [0, 29999, -40002, -40002,
      -40002, -40002, -40002, -40002, -40002, -40002, -40002, -40002,
      -40002, -40002, -40002])
      = ⟨"X", "x", (compute_rsi [0, 29999, -40002, -40002, -40002, -40002,
          -40002, -40002, -40002, -40002, -40002, -40002, -40002, -40002,
          -40002] 14).map round2,
        signalOf (compute_rsi [0, 29999, -40002, -40002, -40002, -40002,
          -40002, -40002, -40002, -40002, -40002, -40002, -40002, -40002,
          -40002] 14)⟩ := rfl
  rw [hrow, hrsi]
  have hsig : signalOf (some (29999 / 1000 : ℚ)) = "buy" := by
    norm_num [signalOf]
  rw [hsig]
  simp [hround]

end CryptoTrending

/-- Claim C9: every sink write fully overwrites the prior contents: writing
result set B after result set A leaves exactly the state of writing B
alone, namely one row per result in computed order. -/
theorem sink_overwrite
    (A B : List (Nat × ℚ)) (p1 p2 : Option (List (String × ℚ)))
    (c1 c2 : Option (List String × List (String × ℚ)))
    (A2 B2 : List CryptoTrending.ResultRow)
    (q1 q2 : Option (List CryptoTrending.ResultRow))
    (d1 d2 : Option (List String × List CryptoTrending.ResultRow)) :
    BlockassetData.save_db B (some (BlockassetData.save_db A p1))
        = BlockassetData.save_db B p2 ∧
    BlockassetData.save_db B p2
        = B.map (fun r => (BlockassetData.dateOf r.1, r.2)) ∧
    BlockassetData.save_csv B (some (BlockassetData.save_csv A c1))
        = BlockassetData.save_csv B c2 ∧
    CryptoTrending.save_db B2 (some (CryptoTrending.save_db A2 q1))
        = CryptoTrending.save_db B2 q2 ∧
    CryptoTrending.save_db B2 q2 = B2 ∧
    CryptoTrending.save_csv B2 (some (CryptoTrending.save_csv A2 d1))
        = CryptoTrending.save_csv B2 d2 :=
  ⟨rfl, rfl, rfl, rfl, rfl, rfl⟩
